import Mathlib

/-!
Verification of the NCRI_Timelines core pipeline

A shallow embedding of the comment-segmentation, date-extraction and
tag-suggestion core of the NCRI_Timelines repository
(`comment_segmenter.py`, `date_extraction.py`, `tag_suggester.py`),
together with proofs about the embedded code.

Modelling conventions:
* Python strings are `List Char` (sequences of code points).
* `datetime` values are integer day numbers (`Int`); `timedelta(days = n)`
  is subtraction of `n`.  Comparisons between datetimes become integer
  comparisons, and `timedelta(days = 365 * 10)` becomes the literal
  `365 * 10`.
* Similarity scores (Python floats produced by scikit-learn) are modelled
  as rationals `ℚ`; the properties proved are order/threshold properties
  that do not depend on rounding.
* Calls into external libraries (SpaCy sentence segmentation and entity
  recognition, `dateparser.search_dates` / `dateparser.parse`, the
  TF-IDF vectorizer and `cosine_similarity`) are modelled as explicit
  function parameters ("oracles"); every theorem quantifies over them,
  so the results hold for every behaviour of those libraries.
* Bounded loops from the source (`max_iterations = 100`, the left-to-right
  regex scans) are modelled with explicit fuel; the fuel used always
  dominates the number of iterations the source can perform.
-/

namespace NCRI

/-! ## Basic character utilities -/

/-- ASCII whitespace, as recognised by Python's `str.strip` and the regex
class `\s` on ASCII text. -/
def isWS (c : Char) : Bool :=
  c = ' ' || c = '\t' || c = '\n' || c = '\r' || c = '\x0b' || c = '\x0c'

/-- Python's `str.strip()`: drop leading and trailing whitespace. -/
def stripChars (l : List Char) : List Char :=
  ((l.dropWhile isWS).reverse.dropWhile isWS).reverse

/-- The non-whitespace content of a string (used to state "reproduces the
original text's content, ignoring exact whitespace"). -/
def nonWS (l : List Char) : List Char := l.filter (fun c => !isWS c)

/-- Python slice `text[a:b]`. -/
def slice (l : List Char) (a b : Nat) : List Char := (l.take b).drop a

/-! ## Segmenter data model (`comment_segmenter.py`)

A working span during segmentation carries the dict keys
`text`, `startIndex`, `endIndex`, `has_date_or_time`. -/

structure Seg where
  text : List Char
  startIndex : Nat
  endIndex : Nat
  hasDate : Bool
deriving DecidableEq, Repr

/-- A finalized segment as returned by `merge_segments_without_dates`:
`text`, `date`, `dateSource`, `startIndex`, `endIndex`. -/
structure FinalSeg where
  text : List Char
  date : Int
  dateSource : String
  startIndex : Nat
  endIndex : Nat
deriving DecidableEq, Repr

/-! ## `CommentSegmenter.create_initial_segments` -/

/-- Boundary positions after a colon followed by whitespace: the `match.end()`
of every match of the regex `:\s`. -/
def colonBoundaries (t : List Char) : List Nat :=
  (List.range t.length).filterMap fun i =>
    match t.get? i, t.get? (i+1) with
    | some c, some c2 => if c = ':' && isWS c2 then some (i+2) else none
    | _, _ => none

/-- Boundary positions after each newline character. -/
def newlineBoundaries (t : List Char) : List Nat :=
  (List.range t.length).filterMap fun i =>
    if t.get? i = some '\n' then some (i+1) else none

/-- Insertion into a sorted list of naturals (ascending). -/
def insertNat (x : Nat) : List Nat → List Nat
  | [] => [x]
  | y :: rest => if x ≤ y then x :: y :: rest else y :: insertNat x rest

/-- Insertion sort, ascending: models Python's `sorted`. -/
def sortNat : List Nat → List Nat
  | [] => []
  | x :: rest => insertNat x (sortNat rest)

/-- Python's `sorted(list(set(...)))` over the union of the three boundary sets.
Sentence boundaries come from the external SpaCy model and are a parameter;
the source keeps only those with `sent.end_char < len(text)`. -/
def boundariesOf (sentEnds : List Nat) (t : List Char) : List Nat :=
  sortNat ((colonBoundaries t ++ sentEnds.filter (fun b => b < t.length)
      ++ newlineBoundaries t).dedup)

/-- The segment-cutting loop of `create_initial_segments` (including the
trailing segment added after the loop): walk the boundary list keeping
`last_pos`, emitting each non-empty stripped slice with its offsets. -/
def cutAll (t : List Char) : Nat → List Nat → List Seg
  | lastPos, [] =>
    if lastPos < t.length then
      let st := stripChars (slice t lastPos t.length)
      if st.isEmpty then [] else [⟨st, lastPos, t.length, false⟩]
    else []
  | lastPos, b :: bs =>
    if lastPos < b then
      let st := stripChars (slice t lastPos b)
      if st.isEmpty then cutAll t b bs else ⟨st, lastPos, b, false⟩ :: cutAll t b bs
    else cutAll t lastPos bs

/-- Model of `CommentSegmenter.create_initial_segments`: cut at the sorted boundary
set; if no segments were created, the entire text is one segment. -/
def create_initial_segments (sentEnds : List Nat) (t : List Char) : List Seg :=
  if (cutAll t 0 (boundariesOf sentEnds t)).isEmpty then [⟨t, 0, t.length, false⟩]
  else cutAll t 0 (boundariesOf sentEnds t)

/-! ## `CommentSegmenter.merge_segments_without_dates` -/

/-- Merging one span into the previous output span: concatenate the texts
with a single separating space, keep the previous start offset, extend the
end offset to the merged span's end, and re-evaluate the date detector `f`
on the merged text. -/
def mergeInto (f : List Char → Bool) (prev cur : Seg) : Seg :=
  let mergedText := prev.text ++ ' ' :: cur.text
  ⟨mergedText, prev.startIndex, cur.endIndex, f mergedText⟩

/-- The inner `while i < len(segments)` loop of one merge pass, carrying the
`new_segments` accumulator in reverse.  A span at `i > 0` lacking a date is
merged into the last accumulator element (`new_segments[-1]`); every other
span is appended.  The boolean result is `merged_any`. -/
def mergePassGo (f : List Char → Bool) :
    List Seg → List Seg → Bool → List Seg × Bool
  | accRev, [], m => (accRev.reverse, m)
  | [], s :: rest, m => mergePassGo f [s] rest m
  | p :: acc, s :: rest, m =>
    if s.hasDate then mergePassGo f (s :: p :: acc) rest m
    else mergePassGo f (mergeInto f p s :: acc) rest true

/-- One left-to-right merge pass over the span list. -/
def mergePass (f : List Char → Bool) (segs : List Seg) : List Seg × Bool :=
  mergePassGo f [] segs false

/-- Recursive restatement of one merge pass that keeps the currently open
output span explicit (proved equal to `mergePass` in `mergePass_eq_alt`). -/
def mergePassAlt (f : List Char → Bool) : Seg → List Seg → List Seg × Bool
  | cur, [] => ([cur], false)
  | cur, s :: rest =>
    if s.hasDate then
      let r := mergePassAlt f s rest
      (cur :: r.1, r.2)
    else ((mergePassAlt f (mergeInto f cur s) rest).1, true)

/-- Left-to-right merging of a whole block of spans into an initial span,
one `mergeInto` at a time (used to state the structure of one merge pass). -/
def mergeBlock (f : List Char → Bool) : Seg → List Seg → Seg
  | s, [] => s
  | s, c :: rest => mergeBlock f (mergeInto f s c) rest

/-- The outer `while iteration < max_iterations` loop: at the top of each
iteration, stop if no span lacks a date or only one span remains; otherwise
run one merge pass, and stop if it merged nothing.  Returns the final span
list together with the number of iterations performed.  `fuel` is the
remaining iteration budget (`max_iterations - iteration`). -/
def mergeLoop (f : List Char → Bool) : Nat → List Seg → List Seg × Nat
  | 0, segs => (segs, 0)
  | fuel+1, segs =>
    if (segs.filter (fun s => !s.hasDate)).length = 0 || segs.length = 1 then
      (segs, 1)
    else if !(mergePass f segs).2 then ((mergePass f segs).1, 1)
    else ((mergeLoop f fuel (mergePass f segs).1).1,
      (mergeLoop f fuel (mergePass f segs).1).2 + 1)

/-- The initial marking step: set `has_date_or_time` on every span by
running the date detector on its text. -/
def markSegs (f : List Char → Bool) (segs : List Seg) : List Seg :=
  segs.map fun s => ⟨s.text, s.startIndex, s.endIndex, f s.text⟩

/-- The finalize step: compute each surviving span's date with
`extract_segment_date` and set
`dateSource = "extracted" if has_date_or_time else "asana_timestamp"`. -/
def finalizeSegs (extract : List Char → Int) (segs : List Seg) : List FinalSeg :=
  segs.map fun s =>
    ⟨s.text, extract s.text,
      if s.hasDate then "extracted" else "asana_timestamp",
      s.startIndex, s.endIndex⟩

/-- Model of `CommentSegmenter.merge_segments_without_dates`: mark, merge with the
iteration cap `max_iterations = 100`, finalize.  `f` is the external
`has_date_or_time_reference` check and `extract` the external
`extract_segment_date`. -/
def merge_segments_without_dates (f : List Char → Bool)
    (extract : List Char → Int) (segs : List Seg) : List FinalSeg :=
  finalizeSegs extract ((mergeLoop f 100 (markSegs f segs)).1)

/-- Model of `CommentSegmenter.extract_dates_and_segments` (the SpaCy-available path):
initial boundary split followed by the merge step. -/
def extract_dates_and_segments (f : List Char → Bool)
    (extract : List Char → Int) (sentEnds : List Nat) (t : List Char) :
    List FinalSeg :=
  merge_segments_without_dates f extract (create_initial_segments sentEnds t)

/-! ## `DateExtractor` (`date_extraction.py`) -/

/-- The separator class `[/\-\.]` of `date_attached_pattern`. -/
def isSep (c : Char) : Bool := c = '/' || c = '-' || c = '.'

/-- Length of the leading run of decimal digits. -/
def digitRun (l : List Char) : Nat := (l.takeWhile Char.isDigit).length

/-- Matcher for `date_attached_pattern` =
`(\d{1,2}[/\-\.]\d{1,2}[/\-\.]\d{2,4})([^\s\d])` anchored at the head of
`l`; returns the length of group 1 (the date token) when the whole pattern
matches here.  Greedy matching with backtracking collapses to: each digit
group must take its entire digit run (otherwise the following position,
which the pattern requires to be a non-digit, would hold a digit), so a run
longer than the counter's maximum fails the match. -/
def matchDate1 (l : List Char) : Option Nat :=
  let r1 := digitRun l
  if 1 ≤ r1 ∧ r1 ≤ 2 then
    match l.drop r1 with
    | c1 :: l2 =>
      if isSep c1 then
        let r2 := digitRun l2
        if 1 ≤ r2 ∧ r2 ≤ 2 then
          match l2.drop r2 with
          | c2 :: l4 =>
            if isSep c2 then
              let r3 := digitRun l4
              if 2 ≤ r3 ∧ r3 ≤ 4 then
                match l4.drop r3 with
                | c3 :: _ =>
                  if !isWS c3 && !c3.isDigit then some (r1 + 1 + r2 + 1 + r3)
                  else none
                | [] => none
              else none
            else none
          | [] => none
        else none
      else none
    | [] => none
  else none

/-- Matcher for the date part of the reverse pattern
`([^\s\d])(\d{1,2}[/\-\.]\d{1,2}[/\-\.]\d{2,4})`, anchored at the head of
`l` (the part after the leading non-space non-digit character); returns the
matched length.  Here nothing follows the final digit group, so the greedy
`\d{2,4}` takes at most four digits of the final run. -/
def matchDate2Tail (l : List Char) : Option Nat :=
  let r1 := digitRun l
  if 1 ≤ r1 ∧ r1 ≤ 2 then
    match l.drop r1 with
    | c1 :: l2 =>
      if isSep c1 then
        let r2 := digitRun l2
        if 1 ≤ r2 ∧ r2 ≤ 2 then
          match l2.drop r2 with
          | c2 :: l4 =>
            if isSep c2 then
              let r3 := digitRun l4
              if 2 ≤ r3 then some (r1 + 1 + r2 + 1 + min r3 4) else none
            else none
          | [] => none
        else none
      else none
    | [] => none
  else none

/-- Model of `re.sub` with `date_attached_pattern` and replacement `\1 \2`:
left-to-right non-overlapping scan; on a match, emit the date token, a
space, and the trailing character, then continue after the match.  Each
step consumes at least one character, so fuel equal to the text length
suffices. -/
def sub1F : Nat → List Char → List Char
  | 0, l => l
  | _+1, [] => []
  | fuel+1, c :: rest =>
    match matchDate1 (c :: rest) with
    | some n =>
      (c :: rest).take n ++ ' ' :: ((c :: rest).drop n).take 1
        ++ sub1F fuel (rest.drop n)
    | none => c :: sub1F fuel rest

/-- Model of `re.sub` with the reverse pattern and replacement `\1 \2`. -/
def sub2F : Nat → List Char → List Char
  | 0, l => l
  | _+1, [] => []
  | fuel+1, c :: rest =>
    if !isWS c && !c.isDigit then
      match matchDate2Tail rest with
      | some n => c :: ' ' :: rest.take n ++ sub2F fuel (rest.drop n)
      | none => c :: sub2F fuel rest
    else c :: sub2F fuel rest

/-- Model of `DateExtractor.preprocess_text_for_dates`: apply
`date_attached_pattern.sub(r'\1 \2', text)` and then the reverse pattern
substitution. -/
def preprocess_text_for_dates (t : List Char) : List Char :=
  let p1 := sub1F t.length t
  sub2F p1.length p1

/-- Model of `DateExtractor.validate_date`: reject dates after the reference date
and dates more than `timedelta(days = 365 * 10)` before it. -/
def validate_date (d ref : Int) : Bool :=
  if d > ref then false
  else if d < ref - 365 * 10 then false
  else true

/-- The scan over `search_dates` results in `extract_segment_date`: skip
ordinal-context matches, return the first candidate passing
`validate_date`. -/
def firstValidDate (isOrd : List Char → List Char → Bool)
    (processed : List Char) (ref : Int) :
    List (List Char × Int) → Option Int
  | [] => none
  | (s, d) :: rest =>
    if isOrd processed s then firstValidDate isOrd processed ref rest
    else if validate_date d ref then some d
    else firstValidDate isOrd processed ref rest

/-- The scan over SpaCy `DATE` entities in `extract_segment_date`: skip
ordinal contexts, parse each entity with `dateparser.parse` (the oracle
`dparse`), return the first valid parse. -/
def firstValidEnt (isOrd : List Char → List Char → Bool)
    (dparse : List Char → Option Int)
    (processed : List Char) (ref : Int) :
    List (List Char) → Option Int
  | [] => none
  | e :: rest =>
    if isOrd processed e then firstValidEnt isOrd dparse processed ref rest
    else
      match dparse e with
      | some d =>
        if validate_date d ref then some d
        else firstValidEnt isOrd dparse processed ref rest
      | none => firstValidEnt isOrd dparse processed ref rest

/-- Whether `pat` occurs at the very start of `l`. -/
def startsWithCS : List Char → List Char → Bool
  | [], _ => true
  | _ :: _, [] => false
  | p :: ps, c :: cs => p = c && startsWithCS ps cs

/-- Python's `pat in s` substring test. -/
def containsSub : List Char → List Char → Bool
  | pat, [] => pat.isEmpty
  | pat, c :: rest => startsWithCS pat (c :: rest) || containsSub pat rest

/-- Word characters of the regex class `\w` (ASCII range), used for the
word-boundary assertions `\b` of the time patterns. -/
def isWordChar (c : Char) : Bool := c.isAlphanum || c = '_'

/-- The `\b` assertion before a pattern that starts with a word character:
the previous character (if any) is not a word character. -/
def prevNonWord : Option Char → Bool
  | none => true
  | some c => !isWordChar c

/-- The `\b` assertion after a pattern that ends with a word character:
the next character (if any) is not a word character. -/
def wordBoundaryAfter (s : List Char) : Bool :=
  match s with
  | [] => true
  | c :: _ => !isWordChar c

/-- Anchored match of a literal word pattern `\bword\b` (the leading `\b`
is checked by the search wrapper). -/
def matchLiteral (w s : List Char) : Bool :=
  startsWithCS w s && wordBoundaryAfter (s.drop w.length)

/-- Python's `re.search` over all start positions, for a pattern that
begins with a word character: at each position, check the leading `\b`
against the previous character and run the anchored matcher `m`. -/
def searchAt (m : List Char → Bool) : List Char → Option Char → Bool
  | [], prev => prevNonWord prev && m []
  | c :: rest, prev => (prevNonWord prev && m (c :: rest)) || searchAt m rest (some c)

/-- The alternation `(day|week|month|year)` (first-character-distinct, so
the leftmost alternative is determined). -/
def stripAgoUnit (s : List Char) : Option (List Char) :=
  if startsWithCS ("day".toList) s then some (s.drop 3)
  else if startsWithCS ("week".toList) s then some (s.drop 4)
  else if startsWithCS ("month".toList) s then some (s.drop 5)
  else if startsWithCS ("year".toList) s then some (s.drop 4)
  else none

/-- Anchored match of `\b\d+\s*(day|week|month|year)s?\s*ago\b`.  The
greedy `\d+` must take the whole digit run (no unit starts with a digit),
and the optional `s` may be taken unconditionally: if the next character
is `s`, skipping it cannot make `\s*ago` match either. -/
def matchAgo (s : List Char) : Bool :=
  if digitRun s = 0 then false
  else
    match stripAgoUnit ((s.drop (digitRun s)).dropWhile isWS) with
    | none => false
    | some s2 =>
      let s3 := match s2 with
        | 's' :: r => r
        | _ => s2
      let s4 := s3.dropWhile isWS
      startsWithCS ("ago".toList) s4 && wordBoundaryAfter (s4.drop 3)

/-- The alternation `(week|month|year)`. -/
def stripLastUnit (s : List Char) : Option (List Char) :=
  if startsWithCS ("week".toList) s then some (s.drop 4)
  else if startsWithCS ("month".toList) s then some (s.drop 5)
  else if startsWithCS ("year".toList) s then some (s.drop 4)
  else none

/-- Anchored match of `\blast\s*(week|month|year)\b`. -/
def matchLast (s : List Char) : Bool :=
  startsWithCS ("last".toList) s &&
    (match stripLastUnit ((s.drop 4).dropWhile isWS) with
     | none => false
     | some s2 => wordBoundaryAfter s2)

/-- The alternation `(morning|afternoon|evening)`. -/
def stripThisUnit (s : List Char) : Option (List Char) :=
  if startsWithCS ("morning".toList) s then some (s.drop 7)
  else if startsWithCS ("afternoon".toList) s then some (s.drop 9)
  else if startsWithCS ("evening".toList) s then some (s.drop 7)
  else none

/-- Anchored match of `\bthis\s*(morning|afternoon|evening)\b`. -/
def matchThis (s : List Char) : Bool :=
  startsWithCS ("this".toList) s &&
    (match stripThisUnit ((s.drop 4).dropWhile isWS) with
     | none => false
     | some s2 => wordBoundaryAfter s2)

/-- The seven `time_patterns` of `DateExtractor.__init__`, searched in the
lowercased preprocessed text; the loop returns true on the first hit, i.e.
the disjunction. -/
def timePatternHit (s : List Char) : Bool :=
  searchAt (matchLiteral ("today".toList)) s none ||
  searchAt (matchLiteral ("yesterday".toList)) s none ||
  searchAt matchAgo s none ||
  searchAt matchLast s none ||
  searchAt matchThis s none ||
  searchAt (matchLiteral ("earlier".toList)) s none ||
  searchAt (matchLiteral ("previously".toList)) s none

/-- Model of `DateExtractor.has_date_or_time_reference`.  The length guard
(`len(segment_text) < 3` returns `False` before anything else) and the
seven time-pattern regex searches are repository code, modelled
concretely; only the remaining detection — `search_dates` plus the SpaCy
NER fallback plus their date validation, all driven by external libraries
— is the oracle `ext`, consulted on the preprocessed text exactly when no
time pattern matched. -/
def has_date_or_time_reference (ext : List Char → Bool) (t : List Char) : Bool :=
  if t.length < 3 then false
  else
    if timePatternHit ((preprocess_text_for_dates t).map Char.toLower) then true
    else ext (preprocess_text_for_dates t)

/-- Model of `DateExtractor.extract_segment_date`.  Oracles:
* `searchD` — `dateparser.search.search_dates` on the processed text
  (`none` models both an exception and a `None` result);
* `dparse` — `dateparser.parse`;
* `ents` — the SpaCy `DATE` entity texts of the (truncated) processed text;
* `isOrd` — `is_ordinal_context` (repository code built from fixed regexes;
  abstracted as a predicate because the properties proved hold for every
  filtering behaviour);
* `skipWhole` — the ordinal-idiom regex guard before the whole-segment
  parse attempt.
`asanaDate` is the parsed reference date (`parse_reference_date` succeeds
on a present date in this model) and `now` is `datetime.now()`. -/
def extract_segment_date (searchD : List Char → Option (List (List Char × Int)))
    (dparse : List Char → Option Int)
    (ents : List Char → List (List Char))
    (isOrd : List Char → List Char → Bool)
    (skipWhole : List Char → Bool)
    (t : List Char) (asanaDate : Option Int) (now : Int) : Int :=
  let processed := preprocess_text_for_dates t
  let ref := asanaDate.getD now
  let segLower := processed.map Char.toLower
  if containsSub ("today".toList) segLower then ref
  else if containsSub ("yesterday".toList) segLower then ref - 1
  else
    match firstValidDate isOrd processed ref ((searchD processed).getD []) with
    | some d => d
    | none =>
      match firstValidEnt isOrd dparse processed ref (ents (processed.take 1000)) with
      | some d => d
      | none =>
        if !skipWhole processed then
          match dparse processed with
          | some d => if validate_date d ref then d else asanaDate.getD now
          | none => asanaDate.getD now
        else asanaDate.getD now

/-! ## `TagSuggester` (`tag_suggester.py`) -/

/-- One tag suggestion: `{'tag': ..., 'confidence': ..., 'auto_select': ...}`. -/
structure Suggestion where
  tag : String
  confidence : ℚ
  autoSelect : Bool
deriving DecidableEq, Repr

/-- Insertion step for `np.argsort` (ascending by similarity value). -/
def insertIdxAsc (v : List ℚ) (i : Nat) : List Nat → List Nat
  | [] => [i]
  | j :: rest =>
    if v.getD i 0 < v.getD j 0 then i :: j :: rest else j :: insertIdxAsc v i rest

/-- Model of `np.argsort(similarities)`: the indices `0, ..., len-1` ordered by
ascending similarity. -/
def argsortAsc (v : List ℚ) : List Nat :=
  (List.range v.length).foldr (insertIdxAsc v) []

/-- Model of `np.argsort(similarities)[-top_k:][::-1]`: the indices of the `top_k`
highest similarities, highest first.  (For `top_k = 0`, Python's `[-0:]`
is the whole array.) -/
def topIndices (v : List ℚ) (topK : Nat) : List Nat :=
  let a := argsortAsc v
  (if topK = 0 then a else a.drop (a.length - topK)).reverse

/-- Python's `tag_scores[tag] += x` on a `defaultdict(float)` modelled as an
insertion-ordered association list. -/
def addScore : List (String × ℚ) → String → ℚ → List (String × ℚ)
  | [], tag, x => [(tag, x)]
  | (t, s) :: rest, tag, x =>
    if t = tag then (t, s + x) :: rest else (t, s) :: addScore rest tag x

/-- Model of `for tag in self.segment_tags[idx]: tag_scores[tag] += similarity`. -/
def addTagScores (acc : List (String × ℚ)) (tags : List String) (x : ℚ) :
    List (String × ℚ) :=
  tags.foldl (fun a tag => addScore a tag x) acc

/-- The accumulation loop over `top_indices`: a neighbour contributes its
similarity to each of its tags only when the similarity exceeds the `0.05`
threshold. -/
def accumTags (segTags : List (List String)) (v : List ℚ) :
    List Nat → List (String × ℚ) → List (String × ℚ)
  | [], acc => acc
  | idx :: rest, acc =>
    let s := v.getD idx 0
    if (1 : ℚ)/20 < s then
      accumTags segTags v rest (addTagScores acc (segTags.getD idx []) s)
    else accumTags segTags v rest acc

/-- The full `tag_scores` table for a query with similarity vector `v`. -/
def tagScoresOf (segTags : List (List String)) (v : List ℚ) (topK : Nat) :
    List (String × ℚ) :=
  accumTags segTags v (topIndices v topK) []

/-- Python's `max(tag_scores.values())` (on a non-empty table). -/
def listMaxQ : List (String × ℚ) → ℚ
  | [] => 0
  | p :: rest => rest.foldl (fun m q => max m q.2) p.2

/-- Stable insertion for descending sort by score (Python's
`sorted(..., key, reverse=True)` keeps the original order of equal keys;
a new element is placed before the first strictly smaller key). -/
def insertDesc (x : String × ℚ) : List (String × ℚ) → List (String × ℚ)
  | [] => [x]
  | y :: rest => if y.2 ≤ x.2 then x :: y :: rest else y :: insertDesc x rest

/-- Stable descending sort by accumulated score. -/
def sortDesc : List (String × ℚ) → List (String × ℚ)
  | [] => []
  | x :: rest => insertDesc x (sortDesc rest)

/-- The scoring part of `TagSuggester.suggest_tags` after the similarity
vector is known: accumulate, normalize by the maximum score, sort
descending, truncate to `top_k`. -/
def suggestCore (segTags : List (List String)) (v : List ℚ) (topK : Nat) :
    List Suggestion :=
  if (tagScoresOf segTags v topK).isEmpty then []
  else
    ((sortDesc (tagScoresOf segTags v topK)).map fun p =>
      ⟨p.1, p.2 / listMaxQ (tagScoresOf segTags v topK),
        decide ((7 : ℚ)/10 < p.2 / listMaxQ (tagScoresOf segTags v topK))⟩).take topK

/-- The `TagSuggester` object state: `segment_vectors` is the fitted
TF-IDF matrix, modelled as the list of training texts it was fitted on
(`none` before any successful training), plus the parallel tag lists and
the raw training examples. -/
structure TagSuggester where
  segment_vectors : Option (List (List Char))
  segment_tags : List (List String)
  trained_segments : List (List Char × List String)
deriving DecidableEq, Repr

/-- Model of `TagSuggester.__init__`. -/
def initSuggester : TagSuggester := ⟨none, [], []⟩

/-- Model of `TagSuggester.train_on_tagged_segments`: an empty example list returns
immediately; otherwise replace the training examples, the tag lists, and
the fitted vectors. -/
def train_on_tagged_segments (st : TagSuggester)
    (tagged : List (List Char × List String)) : TagSuggester :=
  if tagged.isEmpty then st
  else ⟨some (tagged.map (·.1)), tagged.map (·.2), tagged⟩

/-- Model of `TagSuggester.suggest_tags`: empty when untrained; otherwise compute
the cosine-similarity vector (oracle `sim`, applied to the fitted corpus
and the query) and run the scoring pipeline. -/
def suggest_tags (sim : List (List Char) → List Char → List ℚ)
    (st : TagSuggester) (t : List Char) (topK : Nat) : List Suggestion :=
  match st.segment_vectors with
  | none => []
  | some vecs =>
    if st.trained_segments.length = 0 then []
    else suggestCore st.segment_tags (sim vecs t) topK

/-- The similarity vector `suggest_tags` computes for a query (empty when
the suggester is untrained). -/
def simsOf (sim : List (List Char) → List Char → List ℚ)
    (st : TagSuggester) (t : List Char) : List ℚ :=
  match st.segment_vectors with
  | none => []
  | some vecs => sim vecs t

/-! ## Relations and Boolean observers used in proofs and claim statements -/

/-- Segment adjacency: the left span ends at or before the right span starts. -/
def SegAdj (a b : Seg) : Prop := a.endIndex ≤ b.startIndex

/-- Descending order by accumulated score. -/
def descRel (a b : String × ℚ) : Prop := b.2 ≤ a.2

/-- Joined text of a finalized segment list. -/
def joinTexts (l : List FinalSeg) : List Char := (l.map FinalSeg.text).flatten

/-- Offsets are non-decreasing and non-overlapping: each segment's end
offset is at most the next segment's start offset. -/
def segmentsOrdered : List FinalSeg → Bool
  | [] => true
  | [_] => true
  | a :: b :: rest => decide (a.endIndex ≤ b.startIndex) && segmentsOrdered (b :: rest)

/-- Every segment's start offset is at most its end offset. -/
def segSpansOK (l : List FinalSeg) : Bool :=
  l.all fun s => decide (s.startIndex ≤ s.endIndex)

/-- Suggestions are sorted by descending confidence. -/
def confSortedDesc : List Suggestion → Bool
  | [] => true
  | [_] => true
  | a :: b :: rest => decide (b.confidence ≤ a.confidence) && confSortedDesc (b :: rest)

/-! ## Whitespace and strip lemmas -/

lemma nonWS_append (a b : List Char) : nonWS (a ++ b) = nonWS a ++ nonWS b := by
  simp [nonWS, List.filter_append]

lemma nonWS_dropWhile (l : List Char) : nonWS (l.dropWhile isWS) = nonWS l := by
  induction l with
  | nil => rfl
  | cons c rest ih =>
    rw [List.dropWhile_cons]
    by_cases h : isWS c
    · simp only [h, if_true]
      rw [ih]
      simp [nonWS, List.filter_cons, h]
    · simp [h]

lemma nonWS_reverse (l : List Char) : nonWS l.reverse = (nonWS l).reverse := by
  simp [nonWS, List.filter_reverse]

lemma nonWS_strip (l : List Char) : nonWS (stripChars l) = nonWS l := by
  unfold stripChars
  rw [nonWS_reverse, nonWS_dropWhile, nonWS_reverse, List.reverse_reverse,
    nonWS_dropWhile]

lemma nonWS_of_strip_empty {l : List Char} (h : (stripChars l).isEmpty) :
    nonWS l = [] := by
  rw [← nonWS_strip l]
  rw [List.isEmpty_iff] at h
  simp [h, nonWS]

/-! ## Boundary lemmas -/

lemma mem_insertNat {x y : Nat} {l : List Nat} :
    x ∈ insertNat y l ↔ x = y ∨ x ∈ l := by
  induction l with
  | nil => simp [insertNat]
  | cons z rest ih =>
    by_cases h : y ≤ z
    · simp [insertNat, h]
    · simp only [insertNat, h, if_false, List.mem_cons, ih]
      tauto

lemma mem_sortNat {x : Nat} {l : List Nat} : x ∈ sortNat l ↔ x ∈ l := by
  induction l with
  | nil => simp [sortNat]
  | cons y rest ih => simp [sortNat, mem_insertNat, ih]

lemma colonBoundaries_le {t : List Char} : ∀ b ∈ colonBoundaries t, b ≤ t.length := by
  intro b hb
  simp only [colonBoundaries, List.mem_filterMap, List.mem_range] at hb
  obtain ⟨i, _, heq⟩ := hb
  rcases h1 : t.get? i with _ | c <;> rcases h2 : t.get? (i+1) with _ | c2 <;>
    rw [h1, h2] at heq <;> try simp at heq
  obtain ⟨-, hb2⟩ := heq
  have hlt : ¬ t.length ≤ i + 1 := by
    intro hle
    rw [List.get?_eq_none.mpr hle] at h2
    exact Option.noConfusion h2
  omega

lemma newlineBoundaries_le {t : List Char} : ∀ b ∈ newlineBoundaries t, b ≤ t.length := by
  intro b hb
  simp only [newlineBoundaries, List.mem_filterMap, List.mem_range] at hb
  obtain ⟨i, hi, hb⟩ := hb
  split at hb
  · simp at hb; omega
  · simp at hb

lemma boundariesOf_le {sentEnds : List Nat} {t : List Char} :
    ∀ b ∈ boundariesOf sentEnds t, b ≤ t.length := by
  intro b hb
  rw [boundariesOf, mem_sortNat, List.mem_dedup] at hb
  rcases List.mem_append.mp hb with h | h
  · rcases List.mem_append.mp h with h | h
    · exact colonBoundaries_le b h
    · have h2 := (List.mem_filter.mp h).2
      simp only [decide_eq_true_eq] at h2
      omega
  · exact newlineBoundaries_le b h

/-! ## `cutAll` invariants -/

lemma cutAll_wf (t : List Char) :
    ∀ (bnds : List Nat) (lastPos : Nat),
      List.Chain' SegAdj (cutAll t lastPos bnds) ∧
      ∀ s ∈ cutAll t lastPos bnds,
        lastPos ≤ s.startIndex ∧ s.startIndex ≤ s.endIndex := by
  intro bnds
  induction bnds with
  | nil =>
    intro lastPos
    simp only [cutAll]
    split_ifs with h1 h2
    · simp
    · refine ⟨List.chain'_singleton _, ?_⟩
      intro s hs
      simp only [List.mem_singleton] at hs
      subst hs
      exact ⟨le_refl _, Nat.le_of_lt h1⟩
    · simp
  | cons b bs ih =>
    intro lastPos
    simp only [cutAll]
    split_ifs with h1 h2
    · refine ⟨(ih b).1, ?_⟩
      intro s hs
      have := (ih b).2 s hs
      omega
    · refine ⟨?_, ?_⟩
      · rw [List.chain'_cons']
        refine ⟨?_, (ih b).1⟩
        intro y hy
        have hmem : y ∈ cutAll t b bs := List.mem_of_mem_head? hy
        have := (ih b).2 y hmem
        simp only [SegAdj]
        omega
      · intro s hs
        rcases List.mem_cons.mp hs with h | h
        · subst h
          exact ⟨le_refl _, Nat.le_of_lt h1⟩
        · have := (ih b).2 s h
          omega
    · exact ih lastPos

lemma cutAll_join (t : List Char) :
    ∀ (bnds : List Nat) (lastPos : Nat),
      (∀ b ∈ bnds, b ≤ t.length) → lastPos ≤ t.length →
      nonWS ((cutAll t lastPos bnds).map Seg.text).flatten = nonWS (t.drop lastPos) := by
  intro bnds
  induction bnds with
  | nil =>
    intro lastPos _ hlp
    simp only [cutAll]
    split_ifs with h1 h2
    · rw [List.isEmpty_iff] at h2
      have h3 : nonWS (slice t lastPos t.length) = [] := by
        rw [← nonWS_strip, h2]; rfl
      have hsl : slice t lastPos t.length = t.drop lastPos := by
        simp [slice, List.take_length]
      rw [hsl] at h3
      simp only [List.map_nil, List.flatten_nil]
      rw [h3]
      rfl
    · simp only [List.map_cons, List.map_nil, List.flatten_cons, List.flatten_nil,
        List.append_nil]
      rw [nonWS_strip]
      congr 1
      simp [slice, List.take_length]
    · have : t.drop lastPos = [] := List.drop_eq_nil_of_le (by omega)
      simp [this, nonWS]
  | cons b bs ih =>
    intro lastPos hb hlp
    have hble : b ≤ t.length := hb b (List.mem_cons_self b bs)
    have hbs : ∀ x ∈ bs, x ≤ t.length := fun x hx => hb x (List.mem_cons_of_mem _ hx)
    simp only [cutAll]
    split_ifs with h1 h2
    · rw [ih b hbs hble]
      have key : t.drop lastPos = slice t lastPos b ++ t.drop b := by
        conv_lhs => rw [← List.take_append_drop b t]
        rw [List.drop_append_eq_append_drop]
        have : lastPos - (t.take b).length = 0 := by
          simp [List.length_take]; omega
        rw [this, List.drop_zero, slice]
      rw [key, nonWS_append, nonWS_of_strip_empty h2, List.nil_append]
    · simp only [List.map_cons, List.flatten_cons]
      rw [nonWS_append, nonWS_strip, ih b hbs hble]
      have key : t.drop lastPos = slice t lastPos b ++ t.drop b := by
        conv_lhs => rw [← List.take_append_drop b t]
        rw [List.drop_append_eq_append_drop]
        have : lastPos - (t.take b).length = 0 := by
          simp [List.length_take]; omega
        rw [this, List.drop_zero, slice]
      rw [key, nonWS_append]
    · exact ih lastPos hbs hlp

/-! ## `create_initial_segments` invariants -/

lemma create_initial_wf (sentEnds : List Nat) (t : List Char) :
    List.Chain' SegAdj (create_initial_segments sentEnds t) ∧
    ∀ s ∈ create_initial_segments sentEnds t, s.startIndex ≤ s.endIndex := by
  unfold create_initial_segments
  split_ifs with h
  · refine ⟨List.chain'_singleton _, ?_⟩
    intro s hs
    simp only [List.mem_singleton] at hs
    subst hs
    exact Nat.zero_le _
  · exact ⟨(cutAll_wf t _ 0).1, fun s hs => ((cutAll_wf t _ 0).2 s hs).2⟩

lemma create_initial_join (sentEnds : List Nat) (t : List Char) :
    nonWS ((create_initial_segments sentEnds t).map Seg.text).flatten = nonWS t := by
  unfold create_initial_segments
  split_ifs with h
  · simp
  · rw [cutAll_join t _ 0 boundariesOf_le (Nat.zero_le _), List.drop_zero]

lemma create_initial_ne (sentEnds : List Nat) (t : List Char) :
    create_initial_segments sentEnds t ≠ [] := by
  unfold create_initial_segments
  split_ifs with h
  · simp
  · intro hnil
    exact h (by rw [hnil]; rfl)

/-! ## One merge pass: accumulator form equals recursive form -/

lemma mergePassGo_eq_alt (f : List Char → Bool) :
    ∀ (rest : List Seg) (p : Seg) (acc : List Seg) (m : Bool),
      mergePassGo f (p :: acc) rest m =
        (acc.reverse ++ (mergePassAlt f p rest).1,
          m || (mergePassAlt f p rest).2) := by
  intro rest
  induction rest with
  | nil =>
    intro p acc m
    simp [mergePassGo, mergePassAlt]
  | cons s rest ih =>
    intro p acc m
    cases hd : s.hasDate
    · simp only [mergePassGo, mergePassAlt, hd, Bool.false_eq_true, if_false]
      rw [ih (mergeInto f p s) acc true]
      simp
    · simp only [mergePassGo, mergePassAlt, hd, if_true]
      rw [ih s (p :: acc) m]
      simp [List.append_assoc]

lemma mergePass_eq_alt (f : List Char → Bool) (h0 : Seg) (rest : List Seg) :
    mergePass f (h0 :: rest) = mergePassAlt f h0 rest := by
  have h1 : mergePass f (h0 :: rest) = mergePassGo f [h0] rest false := rfl
  rw [h1, mergePassGo_eq_alt]
  simp

/-! ## Invariants of one merge pass -/

lemma alt_ne (f : List Char → Bool) :
    ∀ (rest : List Seg) (cur : Seg), (mergePassAlt f cur rest).1 ≠ [] := by
  intro rest
  induction rest with
  | nil => intro cur; simp [mergePassAlt]
  | cons s rest ih =>
    intro cur
    by_cases h : s.hasDate = true
    · simp [mergePassAlt, h]
    · simp only [mergePassAlt, h, if_false]
      exact ih _

lemma alt_headStart (f : List Char → Bool) :
    ∀ (rest : List Seg) (cur : Seg),
      ∃ hd tl, (mergePassAlt f cur rest).1 = hd :: tl ∧
        hd.startIndex = cur.startIndex := by
  intro rest
  induction rest with
  | nil => intro cur; exact ⟨cur, [], rfl, rfl⟩
  | cons s rest ih =>
    intro cur
    by_cases h : s.hasDate = true
    · exact ⟨cur, (mergePassAlt f s rest).1, by simp [mergePassAlt, h], rfl⟩
    · obtain ⟨hd, tl, he, hs⟩ := ih (mergeInto f cur s)
      exact ⟨hd, tl, by simp [mergePassAlt, h, he], by rw [hs]; rfl⟩

lemma alt_wf (f : List Char → Bool) :
    ∀ (rest : List Seg) (cur : Seg),
      List.Chain' SegAdj (cur :: rest) →
      (∀ x ∈ cur :: rest, x.startIndex ≤ x.endIndex) →
      List.Chain' SegAdj (mergePassAlt f cur rest).1 ∧
        ∀ x ∈ (mergePassAlt f cur rest).1, x.startIndex ≤ x.endIndex := by
  intro rest
  induction rest with
  | nil =>
    intro cur _ hm
    refine ⟨by simp [mergePassAlt], ?_⟩
    intro x hx
    simp only [mergePassAlt, List.mem_singleton] at hx
    subst hx
    exact hm _ (List.mem_cons_self _ _)
  | cons s rest ih =>
    intro cur hc hm
    by_cases h : s.hasDate = true
    · have hc' : List.Chain' SegAdj (s :: rest) := (List.chain'_cons.mp hc).2
      have hm' : ∀ x ∈ s :: rest, x.startIndex ≤ x.endIndex :=
        fun x hx => hm x (List.mem_cons_of_mem _ hx)
      obtain ⟨ihc, ihm⟩ := ih s hc' hm'
      constructor
      · simp only [mergePassAlt, h, if_true]
        rw [List.chain'_cons']
        refine ⟨?_, ihc⟩
        intro y hy
        obtain ⟨hd, tl, he, hs⟩ := alt_headStart f rest s
        rw [he] at hy
        simp only [List.head?_cons, Option.mem_def, Option.some.injEq] at hy
        subst hy
        have hcs : SegAdj cur s := (List.chain'_cons.mp hc).1
        simp only [SegAdj] at hcs ⊢
        omega
      · intro x hx
        simp only [mergePassAlt, h, if_true, List.mem_cons] at hx
        rcases hx with rfl | hx
        · exact hm _ (List.mem_cons_self _ _)
        · exact ihm x hx
    · have hadj : SegAdj cur s := (List.chain'_cons.mp hc).1
      have hcs : List.Chain' SegAdj (s :: rest) := (List.chain'_cons.mp hc).2
      have hm0 : cur.startIndex ≤ cur.endIndex := hm _ (List.mem_cons_self _ _)
      have hms : s.startIndex ≤ s.endIndex :=
        hm _ (List.mem_cons_of_mem _ (List.mem_cons_self _ _))
      have hc' : List.Chain' SegAdj (mergeInto f cur s :: rest) := by
        rw [List.chain'_cons']
        refine ⟨?_, hcs.tail⟩
        intro y hy
        have := (List.chain'_cons'.mp hcs).1 y hy
        simp only [SegAdj, mergeInto] at this ⊢
        omega
      have hm' : ∀ x ∈ mergeInto f cur s :: rest, x.startIndex ≤ x.endIndex := by
        intro x hx
        rcases List.mem_cons.mp hx with rfl | hx
        · simp only [mergeInto, SegAdj] at hadj ⊢
          omega
        · exact hm x (List.mem_cons_of_mem _ (List.mem_cons_of_mem _ hx))
      obtain ⟨ihc, ihm⟩ := ih (mergeInto f cur s) hc' hm'
      constructor
      · simp only [mergePassAlt, h, if_false]
        exact ihc
      · intro x hx
        simp only [mergePassAlt, h, if_false] at hx
        exact ihm x hx

lemma nonWS_space_cons (l : List Char) : nonWS (' ' :: l) = nonWS l := by
  simp [nonWS, List.filter_cons, isWS]

lemma alt_join (f : List Char → Bool) :
    ∀ (rest : List Seg) (cur : Seg),
      nonWS (((mergePassAlt f cur rest).1.map Seg.text).flatten) =
        nonWS cur.text ++ nonWS ((rest.map Seg.text).flatten) := by
  intro rest
  induction rest with
  | nil =>
    intro cur
    simp [mergePassAlt, nonWS]
  | cons s rest ih =>
    intro cur
    cases hd : s.hasDate
    · simp only [mergePassAlt, hd, Bool.false_eq_true, if_false, List.map_cons,
        List.flatten_cons]
      rw [ih (mergeInto f cur s), nonWS_append]
      have hm : nonWS (mergeInto f cur s).text = nonWS cur.text ++ nonWS s.text := by
        simp only [mergeInto]
        rw [nonWS_append, nonWS_space_cons]
      rw [hm, List.append_assoc]
    · simp only [mergePassAlt, hd, if_true, List.map_cons, List.flatten_cons]
      rw [nonWS_append, ih s, nonWS_append]

lemma alt_hasDate (f : List Char → Bool) :
    ∀ (rest : List Seg) (cur : Seg),
      cur.hasDate = f cur.text →
      (∀ x ∈ rest, x.hasDate = f x.text) →
      ∀ x ∈ (mergePassAlt f cur rest).1, x.hasDate = f x.text := by
  intro rest
  induction rest with
  | nil =>
    intro cur hcur _ x hx
    simp only [mergePassAlt, List.mem_singleton] at hx
    subst hx
    exact hcur
  | cons s rest ih =>
    intro cur hcur hrest x hx
    by_cases h : s.hasDate = true
    · simp only [mergePassAlt, h, if_true, List.mem_cons] at hx
      rcases hx with rfl | hx
      · exact hcur
      · exact ih s (hrest s (List.mem_cons_self _ _))
          (fun y hy => hrest y (List.mem_cons_of_mem _ hy)) x hx
    · simp only [mergePassAlt, h, if_false] at hx
      exact ih (mergeInto f cur s) rfl
        (fun y hy => hrest y (List.mem_cons_of_mem _ hy)) x hx

/-! ## The block structure of one merge pass -/

lemma alt_structure (f : List Char → Bool) :
    ∀ (rest : List Seg) (cur : Seg),
      ∃ (t0 : List Seg) (bs : List (Seg × List Seg)),
        rest = t0 ++ (bs.map fun b => b.1 :: b.2).flatten ∧
        (∀ c ∈ t0, c.hasDate = false) ∧
        (∀ b ∈ bs, (b : Seg × List Seg).1.hasDate = true) ∧
        (∀ b ∈ bs, ∀ c ∈ (b : Seg × List Seg).2, c.hasDate = false) ∧
        (mergePassAlt f cur rest).1 =
          mergeBlock f cur t0 :: bs.map (fun b => mergeBlock f b.1 b.2) ∧
        ((mergePassAlt f cur rest).2 = true ↔
          t0 ≠ [] ∨ ∃ b ∈ bs, (b : Seg × List Seg).2 ≠ []) := by
  intro rest
  induction rest with
  | nil =>
    intro cur
    refine ⟨[], [], by simp, by simp, by simp, by simp, by simp [mergePassAlt, mergeBlock], ?_⟩
    simp [mergePassAlt]
  | cons s rest ih =>
    intro cur
    by_cases h : s.hasDate = true
    · obtain ⟨t0', bs', he, ht0', hb1', hb2', hres', hiff'⟩ := ih s
      refine ⟨[], (s, t0') :: bs', ?_, by simp, ?_, ?_, ?_, ?_⟩
      · simp only [List.map_cons, List.flatten_cons, List.nil_append]
        rw [List.cons_append, ← he]
      · intro b hb
        rcases List.mem_cons.mp hb with rfl | hb
        · exact h
        · exact hb1' b hb
      · intro b hb
        rcases List.mem_cons.mp hb with rfl | hb
        · exact ht0'
        · exact hb2' b hb
      · simp only [mergePassAlt, h, if_true, List.map_cons]
        rw [hres']
        rfl
      · have h2 : (mergePassAlt f cur (s :: rest)).2 = (mergePassAlt f s rest).2 := by
          simp [mergePassAlt, h]
        rw [h2, hiff']
        simp only [ne_eq, List.not_mem_nil, List.mem_cons]
        constructor
        · rintro (ht | ⟨b, hb, hne⟩)
          · exact Or.inr ⟨(s, t0'), Or.inl rfl, ht⟩
          · exact Or.inr ⟨b, Or.inr hb, hne⟩
        · rintro (hfalse | ⟨b, hb | hb, hne⟩)
          · exact absurd trivial hfalse
          · subst hb
            exact Or.inl hne
          · exact Or.inr ⟨b, hb, hne⟩
    · obtain ⟨t0', bs', he, ht0', hb1', hb2', hres', hiff'⟩ := ih (mergeInto f cur s)
      have hsf : s.hasDate = false := by
        cases hd : s.hasDate
        · rfl
        · exact absurd hd h
      refine ⟨s :: t0', bs', ?_, ?_, hb1', hb2', ?_, ?_⟩
      · rw [List.cons_append, ← he]
      · intro c hc
        rcases List.mem_cons.mp hc with rfl | hc
        · exact hsf
        · exact ht0' c hc
      · simp only [mergePassAlt, h, if_false]
        rw [hres']
        rfl
      · have h2 : (mergePassAlt f cur (s :: rest)).2 = true := by
          simp [mergePassAlt, h]
        rw [h2]
        simp

/-! ## `mergePass` on a possibly empty list -/

lemma mergePass_nil (f : List Char → Bool) : mergePass f [] = ([], false) := rfl

lemma mergePass_ne (f : List Char → Bool) {segs : List Seg} (h : segs ≠ []) :
    (mergePass f segs).1 ≠ [] := by
  cases segs with
  | nil => exact absurd rfl h
  | cons h0 rest =>
    rw [mergePass_eq_alt]
    exact alt_ne f rest h0

lemma mergePass_wf (f : List Char → Bool) (segs : List Seg)
    (hc : List.Chain' SegAdj segs)
    (hm : ∀ x ∈ segs, x.startIndex ≤ x.endIndex) :
    List.Chain' SegAdj (mergePass f segs).1 ∧
      ∀ x ∈ (mergePass f segs).1, x.startIndex ≤ x.endIndex := by
  cases segs with
  | nil => simp [mergePass_nil]
  | cons h0 rest =>
    rw [mergePass_eq_alt]
    exact alt_wf f rest h0 hc hm

lemma mergePass_join (f : List Char → Bool) (segs : List Seg) :
    nonWS (((mergePass f segs).1.map Seg.text).flatten) =
      nonWS ((segs.map Seg.text).flatten) := by
  cases segs with
  | nil => rfl
  | cons h0 rest =>
    rw [mergePass_eq_alt, alt_join]
    simp only [List.map_cons, List.flatten_cons]
    rw [nonWS_append]

lemma mergePass_hasDate (f : List Char → Bool) (segs : List Seg)
    (hm : ∀ x ∈ segs, x.hasDate = f x.text) :
    ∀ x ∈ (mergePass f segs).1, x.hasDate = f x.text := by
  cases segs with
  | nil => simp [mergePass_nil]
  | cons h0 rest =>
    rw [mergePass_eq_alt]
    exact alt_hasDate f rest h0 (hm h0 (List.mem_cons_self _ _))
      (fun y hy => hm y (List.mem_cons_of_mem _ hy))

/-! ## The bounded merge loop preserves the invariants -/

lemma mergeLoop_ne (f : List Char → Bool) :
    ∀ (fuel : Nat) (segs : List Seg), segs ≠ [] → (mergeLoop f fuel segs).1 ≠ [] := by
  intro fuel
  induction fuel with
  | zero => intro segs h; exact h
  | succ n ih =>
    intro segs h
    simp only [mergeLoop]
    split_ifs with h1 h2
    · exact h
    · exact mergePass_ne f h
    · exact ih _ (mergePass_ne f h)

lemma mergeLoop_wf (f : List Char → Bool) :
    ∀ (fuel : Nat) (segs : List Seg),
      List.Chain' SegAdj segs → (∀ x ∈ segs, x.startIndex ≤ x.endIndex) →
      List.Chain' SegAdj (mergeLoop f fuel segs).1 ∧
        ∀ x ∈ (mergeLoop f fuel segs).1, x.startIndex ≤ x.endIndex := by
  intro fuel
  induction fuel with
  | zero => intro segs hc hm; exact ⟨hc, hm⟩
  | succ n ih =>
    intro segs hc hm
    simp only [mergeLoop]
    split_ifs with h1 h2
    · exact ⟨hc, hm⟩
    · exact mergePass_wf f segs hc hm
    · exact ih _ (mergePass_wf f segs hc hm).1 (mergePass_wf f segs hc hm).2

lemma mergeLoop_join (f : List Char → Bool) :
    ∀ (fuel : Nat) (segs : List Seg),
      nonWS (((mergeLoop f fuel segs).1.map Seg.text).flatten) =
        nonWS ((segs.map Seg.text).flatten) := by
  intro fuel
  induction fuel with
  | zero => intro segs; rfl
  | succ n ih =>
    intro segs
    simp only [mergeLoop]
    split_ifs with h1 h2
    · rfl
    · exact mergePass_join f segs
    · rw [ih, mergePass_join]

lemma mergeLoop_hasDate (f : List Char → Bool) :
    ∀ (fuel : Nat) (segs : List Seg),
      (∀ x ∈ segs, x.hasDate = f x.text) →
      ∀ x ∈ (mergeLoop f fuel segs).1, x.hasDate = f x.text := by
  intro fuel
  induction fuel with
  | zero => intro segs hm; exact hm
  | succ n ih =>
    intro segs hm
    simp only [mergeLoop]
    split_ifs with h1 h2
    · exact hm
    · exact mergePass_hasDate f segs hm
    · exact ih _ (mergePass_hasDate f segs hm)

lemma mergeLoop_count (f : List Char → Bool) :
    ∀ (fuel : Nat) (segs : List Seg), (mergeLoop f fuel segs).2 ≤ fuel := by
  intro fuel
  induction fuel with
  | zero => intro segs; exact le_refl 0
  | succ n ih =>
    intro segs
    simp only [mergeLoop]
    split_ifs with h1 h2
    · omega
    · omega
    · have := ih (mergePass f segs).1
      omega

/-! ## `markSegs` and `finalizeSegs` transfers -/

lemma markSegs_textMap (f : List Char → Bool) (segs : List Seg) :
    (markSegs f segs).map Seg.text = segs.map Seg.text := by
  simp [markSegs]

lemma markSegs_wf (f : List Char → Bool) (segs : List Seg)
    (hc : List.Chain' SegAdj segs)
    (hm : ∀ x ∈ segs, x.startIndex ≤ x.endIndex) :
    List.Chain' SegAdj (markSegs f segs) ∧
      ∀ x ∈ markSegs f segs, x.startIndex ≤ x.endIndex := by
  constructor
  · rw [markSegs, List.chain'_map]
    exact hc
  · intro x hx
    rw [markSegs, List.mem_map] at hx
    obtain ⟨s, hs, rfl⟩ := hx
    exact hm s hs

lemma markSegs_hasDate (f : List Char → Bool) (segs : List Seg) :
    ∀ x ∈ markSegs f segs, x.hasDate = f x.text := by
  intro x hx
  rw [markSegs, List.mem_map] at hx
  obtain ⟨s, _, rfl⟩ := hx
  rfl

lemma markSegs_ne (f : List Char → Bool) {segs : List Seg} (h : segs ≠ []) :
    markSegs f segs ≠ [] := by
  rw [markSegs]
  simpa using h

lemma finalizeSegs_textMap (e : List Char → Int) (segs : List Seg) :
    (finalizeSegs e segs).map FinalSeg.text = segs.map Seg.text := by
  simp [finalizeSegs]

lemma finalizeSegs_length (e : List Char → Int) (segs : List Seg) :
    (finalizeSegs e segs).length = segs.length := by
  simp [finalizeSegs]

lemma segmentsOrdered_of_chain :
    ∀ (l : List FinalSeg),
      List.Chain' (fun a b => a.endIndex ≤ b.startIndex) l →
      segmentsOrdered l = true := by
  intro l
  induction l with
  | nil => intro _; rfl
  | cons a l ih =>
    cases l with
    | nil => intro _; rfl
    | cons b l2 =>
      intro hc
      obtain ⟨h1, h2⟩ := List.chain'_cons.mp hc
      simp only [segmentsOrdered, Bool.and_eq_true, decide_eq_true_eq]
      exact ⟨h1, ih h2⟩

lemma finalizeSegs_chain (e : List Char → Int) (segs : List Seg)
    (hc : List.Chain' SegAdj segs) :
    List.Chain' (fun a b : FinalSeg => a.endIndex ≤ b.startIndex)
      (finalizeSegs e segs) := by
  rw [finalizeSegs, List.chain'_map]
  exact hc

lemma finalizeSegs_spans (e : List Char → Int) (segs : List Seg)
    (hm : ∀ x ∈ segs, x.startIndex ≤ x.endIndex) :
    segSpansOK (finalizeSegs e segs) = true := by
  rw [segSpansOK, List.all_eq_true]
  intro s hs
  rw [finalizeSegs, List.mem_map] at hs
  obtain ⟨x, hx, rfl⟩ := hs
  simpa using hm x hx

lemma mergeBlock_start (f : List Char → Bool) :
    ∀ (t0 : List Seg) (s : Seg), (mergeBlock f s t0).startIndex = s.startIndex := by
  intro t0
  induction t0 with
  | nil => intro s; rfl
  | cons c rest ih =>
    intro s
    rw [mergeBlock, ih]
    rfl

/-! ## Claim theorems for the segmenter -/

/-- C1: for every input text (and every behaviour of the external date
detector, date extractor and sentence segmenter), the segments returned by
`extract_dates_and_segments` have start/end offsets that are monotonically
non-decreasing and non-overlapping (each segment's end offset is at most
the next segment's start offset, and each start is at most its own end),
and joining the segment texts in order reproduces the original text's
content up to whitespace. -/
theorem segment_offsets_and_reconstruction
    (f : List Char → Bool) (extract : List Char → Int)
    (sentEnds : List Nat) (t : List Char) :
    segmentsOrdered (extract_dates_and_segments f extract sentEnds t) = true ∧
    segSpansOK (extract_dates_and_segments f extract sentEnds t) = true ∧
    nonWS (joinTexts (extract_dates_and_segments f extract sentEnds t)) = nonWS t := by
  have hinit := create_initial_wf sentEnds t
  have hmark := markSegs_wf f _ hinit.1 hinit.2
  have hloop := mergeLoop_wf f 100 _ hmark.1 hmark.2
  unfold extract_dates_and_segments merge_segments_without_dates
  refine ⟨?_, ?_, ?_⟩
  · exact segmentsOrdered_of_chain _ (finalizeSegs_chain extract _ hloop.1)
  · exact finalizeSegs_spans extract _ hloop.2
  · rw [joinTexts, finalizeSegs_textMap, mergeLoop_join, markSegs_textMap]
    exact create_initial_join sentEnds t

/-- C2: for every input text (however adversarial), segmentation performs
at most the `max_iterations = 100` merge passes and returns at least one
segment. -/
theorem segment_terminates_within_cap_and_nonempty
    (f : List Char → Bool) (extract : List Char → Int)
    (sentEnds : List Nat) (t : List Char) :
    1 ≤ (extract_dates_and_segments f extract sentEnds t).length ∧
    (mergeLoop f 100 (markSegs f (create_initial_segments sentEnds t))).2 ≤ 100 := by
  constructor
  · unfold extract_dates_and_segments merge_segments_without_dates
    rw [finalizeSegs_length]
    have hne := mergeLoop_ne f 100 _ (markSegs_ne f (create_initial_ne sentEnds t))
    exact List.length_pos.mpr hne
  · exact mergeLoop_count f 100 _

/-- C3: one left-to-right merge pass partitions the input spans into
consecutive blocks: the first block starts with the first span (which is
never merged forward, even when it lacks a date), every later block starts
with a span that has a date, every non-leading span of a block lacks a
date and is merged into the block by `mergeInto` (texts concatenated with
a single separating space, end offset extended to the merged span's end,
`has_date_or_time_reference` re-evaluated on the merged text), and the
pass reports a merge exactly when some block has a non-leading span.  The
output span of the first block keeps the first span's start offset. -/
theorem merge_pass_structure (f : List Char → Bool) (h0 : Seg) (rest : List Seg) :
    ∃ (t0 : List Seg) (bs : List (Seg × List Seg)),
      rest = t0 ++ (bs.map fun b => b.1 :: b.2).flatten ∧
      (∀ c ∈ t0, c.hasDate = false) ∧
      (∀ b ∈ bs, (b : Seg × List Seg).1.hasDate = true) ∧
      (∀ b ∈ bs, ∀ c ∈ (b : Seg × List Seg).2, c.hasDate = false) ∧
      (mergePass f (h0 :: rest)).1 =
        mergeBlock f h0 t0 :: bs.map (fun b => mergeBlock f b.1 b.2) ∧
      (mergeBlock f h0 t0).startIndex = h0.startIndex ∧
      ((mergePass f (h0 :: rest)).2 = true ↔
        t0 ≠ [] ∨ ∃ b ∈ bs, (b : Seg × List Seg).2 ≠ []) := by
  obtain ⟨t0, bs, he, h1, h2, h3, h4, h5⟩ := alt_structure f rest h0
  refine ⟨t0, bs, he, h1, h2, h3, ?_, mergeBlock_start f t0 h0, ?_⟩
  · rw [mergePass_eq_alt]
    exact h4
  · rw [mergePass_eq_alt]
    exact h5

/-- C5 (amended): a returned segment's `dateSource` is `"extracted"`
exactly when `has_date_or_time_reference` holds of the surviving span's
final (possibly merged) text, and `"asana_timestamp"` otherwise. -/
theorem date_source_iff_detector
    (f : List Char → Bool) (extract : List Char → Int)
    (sentEnds : List Nat) (t : List Char) :
    (extract_dates_and_segments f extract sentEnds t).all
      (fun s => ((s.dateSource == "extracted") == f s.text) &&
        (s.dateSource == "extracted" || s.dateSource == "asana_timestamp")) = true := by
  rw [List.all_eq_true]
  intro s hs
  unfold extract_dates_and_segments merge_segments_without_dates at hs
  rw [finalizeSegs, List.mem_map] at hs
  obtain ⟨x, hx, rfl⟩ := hs
  have hxd : x.hasDate = f x.text :=
    mergeLoop_hasDate f 100 _ (markSegs_hasDate f _) x hx
  cases hd : x.hasDate
  · rw [hd] at hxd
    simp [← hxd]
  · rw [hd] at hxd
    simp [← hxd]

/-- The span `"yesterday"` is date-tagged by the repository's own
`\byesterday\b` time pattern, deterministically, before the external
libraries are ever consulted: the detector returns true for every
behaviour of the external oracle. -/
lemma yesterday_detected (ext : List Char → Bool) :
    has_date_or_time_reference ext ("yesterday".toList) = true := rfl

/-- C5 counterexample: on the input `"ab: yesterday"`, the second span
`"yesterday"` is date-tagged deterministically by the repository's own
`\byesterday\b` time pattern (see `yesterday_detected`), while the first
span `"ab:"` matches no time pattern and its external date search is
modelled by the oracle that finds nothing — which is what the real
`search_dates`/SpaCy calls return on `"ab:"`, a text with no date.  The
merge pass cannot merge the position-0 span forward, the loop exits
through its no-progress break, and the pipeline returns TWO segments with
`"asana_timestamp"` on the FIRST — refuting "the asana_timestamp case
occurs only for the last remaining span when merging exhausts all
candidates". -/
theorem asana_timestamp_on_first_of_two :
    (extract_dates_and_segments
        (has_date_or_time_reference (fun _ => false)) (fun _ => 0) []
        ("ab: yesterday".toList)).map FinalSeg.dateSource =
      ["asana_timestamp", "extracted"] ∧
    (extract_dates_and_segments
        (has_date_or_time_reference (fun _ => false)) (fun _ => 0) []
        ("ab: yesterday".toList)).length = 2 ∧
    has_date_or_time_reference (fun _ => false) ("yesterday".toList) = true ∧
    has_date_or_time_reference (fun _ => false) ("ab:".toList) = false := by
  decide

/-! ## The date window of `extract_segment_date` (for C4) -/

lemma validate_date_window {d ref : Int} (h : validate_date d ref = true) :
    ref - 365 * 10 ≤ d ∧ d ≤ ref := by
  unfold validate_date at h
  split_ifs at h with h1 h2
  omega

lemma firstValidDate_window (isOrd : List Char → List Char → Bool)
    (processed : List Char) (ref : Int) :
    ∀ (cands : List (List Char × Int)) (d : Int),
      firstValidDate isOrd processed ref cands = some d →
      ref - 365 * 10 ≤ d ∧ d ≤ ref := by
  intro cands
  induction cands with
  | nil => intro d h; exact Option.noConfusion h
  | cons c rest ih =>
    intro d h
    obtain ⟨s, dv⟩ := c
    simp only [firstValidDate] at h
    split_ifs at h with h1 h2
    · exact ih d h
    · rw [Option.some.injEq] at h
      subst h
      exact validate_date_window h2
    · exact ih d h

lemma firstValidEnt_window (isOrd : List Char → List Char → Bool)
    (dparse : List Char → Option Int) (processed : List Char) (ref : Int) :
    ∀ (es : List (List Char)) (d : Int),
      firstValidEnt isOrd dparse processed ref es = some d →
      ref - 365 * 10 ≤ d ∧ d ≤ ref := by
  intro es
  induction es with
  | nil => intro d h; exact Option.noConfusion h
  | cons e rest ih =>
    intro d h
    simp only [firstValidEnt] at h
    split_ifs at h with h1
    · exact ih d h
    · split at h
      · next dv heq =>
        split_ifs at h with h2
        · rw [Option.some.injEq] at h
          subst h
          exact validate_date_window h2
        · exact ih d h
      · exact ih d h

lemma extract_segment_date_window
    (searchD : List Char → Option (List (List Char × Int)))
    (dparse : List Char → Option Int)
    (ents : List Char → List (List Char))
    (isOrd : List Char → List Char → Bool)
    (skipWhole : List Char → Bool)
    (t : List Char) (asanaDate : Option Int) (now : Int) :
    asanaDate.getD now - 365 * 10 ≤
        extract_segment_date searchD dparse ents isOrd skipWhole t asanaDate now ∧
      extract_segment_date searchD dparse ents isOrd skipWhole t asanaDate now ≤
        asanaDate.getD now := by
  simp only [extract_segment_date]
  split_ifs with h1 h2 h3
  · omega
  · omega
  · split
    · next d heq =>
      exact firstValidDate_window _ _ _ _ d heq
    · split
      · next d heq =>
        exact firstValidEnt_window _ _ _ _ _ d heq
      · split
        · next d heq =>
          split_ifs with h4
          · exact validate_date_window h4
          · omega
        · omega
  · split
    · next d heq =>
      exact firstValidDate_window _ _ _ _ d heq
    · split
      · next d heq =>
        exact firstValidEnt_window _ _ _ _ _ d heq
      · omega

/-- C4: for every returned segment with `date_source == "extracted"` and a
given reference date `r`, the date is on or before `r` and at least
`r - 365 * 10` days (the source's rendering of "10 years"), for every
behaviour of the external date-parsing libraries.  (In fact all branches
of `extract_segment_date` land in this window.) -/
theorem extracted_dates_within_window
    (searchD : List Char → Option (List (List Char × Int)))
    (dparse : List Char → Option Int)
    (ents : List Char → List (List Char))
    (isOrd : List Char → List Char → Bool)
    (skipWhole : List Char → Bool)
    (f : List Char → Bool) (sentEnds : List Nat) (t : List Char) (r now : Int) :
    (extract_dates_and_segments f
        (fun txt => extract_segment_date searchD dparse ents isOrd skipWhole txt (some r) now)
        sentEnds t).all
      (fun s => !(s.dateSource == "extracted") ||
        (decide (r - 365 * 10 ≤ s.date) && decide (s.date ≤ r))) = true := by
  rw [List.all_eq_true]
  intro s hs
  unfold extract_dates_and_segments merge_segments_without_dates at hs
  rw [finalizeSegs, List.mem_map] at hs
  obtain ⟨x, hx, rfl⟩ := hs
  have hw := extract_segment_date_window searchD dparse ents isOrd skipWhole
    x.text (some r) now
  simp only [Option.getD_some] at hw
  dsimp only
  simp only [Bool.or_eq_true, Bool.and_eq_true, decide_eq_true_eq]
  exact Or.inr ⟨hw.1, hw.2⟩

/-! ## Positivity of accumulated tag scores -/

lemma addScore_pos {tag : String} {x : ℚ} (hx : 0 < x) :
    ∀ (acc : List (String × ℚ)), (∀ p ∈ acc, 0 < p.2) →
      ∀ p ∈ addScore acc tag x, 0 < p.2 := by
  intro acc
  induction acc with
  | nil =>
    intro _ p hp
    simp only [addScore, List.mem_singleton] at hp
    subst hp
    exact hx
  | cons q rest ih =>
    intro hacc p hp
    obtain ⟨t0, s0⟩ := q
    simp only [addScore] at hp
    split_ifs at hp with h
    · rcases List.mem_cons.mp hp with rfl | hp
      · have hs := hacc (t0, s0) (List.mem_cons_self _ _)
        simp only at hs ⊢
        positivity
      · exact hacc p (List.mem_cons_of_mem _ hp)
    · rcases List.mem_cons.mp hp with rfl | hp
      · exact hacc (t0, s0) (List.mem_cons_self _ _)
      · exact ih (fun y hy => hacc y (List.mem_cons_of_mem _ hy)) p hp

lemma addTagScores_pos {x : ℚ} (hx : 0 < x) :
    ∀ (tags : List String) (acc : List (String × ℚ)), (∀ p ∈ acc, 0 < p.2) →
      ∀ p ∈ addTagScores acc tags x, 0 < p.2 := by
  intro tags
  induction tags with
  | nil => intro acc hacc p hp; exact hacc p hp
  | cons tg rest ih =>
    intro acc hacc p hp
    rw [addTagScores, List.foldl_cons] at hp
    exact ih (addScore acc tg x) (addScore_pos hx acc hacc) p hp

lemma accumTags_pos (segTags : List (List String)) (v : List ℚ) :
    ∀ (idxs : List Nat) (acc : List (String × ℚ)), (∀ p ∈ acc, 0 < p.2) →
      ∀ p ∈ accumTags segTags v idxs acc, 0 < p.2 := by
  intro idxs
  induction idxs with
  | nil => intro acc hacc p hp; exact hacc p hp
  | cons idx rest ih =>
    intro acc hacc p hp
    simp only [accumTags] at hp
    split_ifs at hp with h
    · exact ih _ (addTagScores_pos (by linarith) _ acc hacc) p hp
    · exact ih _ hacc p hp

lemma tagScoresOf_pos (segTags : List (List String)) (v : List ℚ) (topK : Nat) :
    ∀ p ∈ tagScoresOf segTags v topK, 0 < p.2 :=
  accumTags_pos segTags v _ [] (by simp)

/-! ## The maximum accumulated score -/

lemma foldl_max_init (l : List (String × ℚ)) :
    ∀ a : ℚ, a ≤ l.foldl (fun m q => max m q.2) a := by
  induction l with
  | nil => intro a; exact le_refl a
  | cons q rest ih =>
    intro a
    rw [List.foldl_cons]
    exact le_trans (le_max_left a q.2) (ih (max a q.2))

lemma foldl_max_mem (l : List (String × ℚ)) :
    ∀ (a : ℚ) (p : String × ℚ), p ∈ l → p.2 ≤ l.foldl (fun m q => max m q.2) a := by
  induction l with
  | nil => intro a p hp; exact absurd hp (List.not_mem_nil p)
  | cons q rest ih =>
    intro a p hp
    rw [List.foldl_cons]
    rcases List.mem_cons.mp hp with rfl | hp
    · exact le_trans (le_max_right a p.2) (foldl_max_init rest (max a p.2))
    · exact ih (max a q.2) p hp

lemma listMaxQ_ge (l : List (String × ℚ)) : ∀ p ∈ l, p.2 ≤ listMaxQ l := by
  intro p hp
  cases l with
  | nil => exact absurd hp (List.not_mem_nil p)
  | cons q rest =>
    rw [listMaxQ]
    rcases List.mem_cons.mp hp with rfl | hp
    · exact foldl_max_init rest p.2
    · exact foldl_max_mem rest q.2 p hp

lemma listMaxQ_pos {l : List (String × ℚ)} (hne : l ≠ [])
    (hpos : ∀ p ∈ l, 0 < p.2) : 0 < listMaxQ l := by
  cases l with
  | nil => exact absurd rfl hne
  | cons q rest =>
    rw [listMaxQ]
    exact lt_of_lt_of_le (hpos q (List.mem_cons_self _ _)) (foldl_max_init rest q.2)

/-! ## The stable descending sort -/

lemma mem_insertDesc {p x : String × ℚ} :
    ∀ {l : List (String × ℚ)}, p ∈ insertDesc x l ↔ p = x ∨ p ∈ l := by
  intro l
  induction l with
  | nil => simp [insertDesc]
  | cons y rest ih =>
    by_cases h : y.2 ≤ x.2
    · simp [insertDesc, h]
    · simp only [insertDesc, h, if_false, List.mem_cons, ih]
      tauto

lemma mem_sortDesc {p : String × ℚ} :
    ∀ {l : List (String × ℚ)}, p ∈ sortDesc l ↔ p ∈ l := by
  intro l
  induction l with
  | nil => simp [sortDesc]
  | cons y rest ih => simp [sortDesc, mem_insertDesc, ih]

lemma head_insertDesc (x : String × ℚ) :
    ∀ (l : List (String × ℚ)),
      (insertDesc x l).head? = some x ∨ (insertDesc x l).head? = l.head? := by
  intro l
  cases l with
  | nil => exact Or.inl rfl
  | cons y rest =>
    by_cases h : y.2 ≤ x.2
    · simp [insertDesc, h]
    · simp [insertDesc, h]

lemma insertDesc_chain (x : String × ℚ) :
    ∀ (l : List (String × ℚ)), List.Chain' descRel l →
      List.Chain' descRel (insertDesc x l) := by
  intro l
  induction l with
  | nil => intro _; simp [insertDesc]
  | cons y rest ih =>
    intro h
    by_cases hxy : y.2 ≤ x.2
    · simp only [insertDesc, hxy, if_true]
      exact List.chain'_cons.mpr ⟨hxy, h⟩
    · simp only [insertDesc, hxy, if_false]
      have hins := ih ((List.chain'_cons'.mp h).2)
      rw [List.chain'_cons']
      refine ⟨?_, hins⟩
      intro z hz
      rcases head_insertDesc x rest with he | he <;> rw [he] at hz
      · simp only [Option.mem_def, Option.some.injEq] at hz
        subst hz
        exact le_of_not_le hxy
      · exact (List.chain'_cons'.mp h).1 z hz

lemma sortDesc_chain :
    ∀ (l : List (String × ℚ)), List.Chain' descRel (sortDesc l) := by
  intro l
  induction l with
  | nil => simp [sortDesc]
  | cons y rest ih => exact insertDesc_chain y (sortDesc rest) ih

/-! ## Transfer to suggestion lists -/

lemma confSortedDesc_of_chain :
    ∀ (l : List Suggestion),
      List.Chain' (fun a b => b.confidence ≤ a.confidence) l →
      confSortedDesc l = true := by
  intro l
  induction l with
  | nil => intro _; rfl
  | cons a l ih =>
    cases l with
    | nil => intro _; rfl
    | cons b l2 =>
      intro hc
      obtain ⟨h1, h2⟩ := List.chain'_cons.mp hc
      simp only [confSortedDesc, Bool.and_eq_true, decide_eq_true_eq]
      exact ⟨h1, ih h2⟩

lemma chain'_take {α : Type} {R : α → α → Prop} :
    ∀ (l : List α) (n : Nat), List.Chain' R l → List.Chain' R (l.take n) := by
  intro l
  induction l with
  | nil => intro n _; simp
  | cons a l ih =>
    intro n hc
    cases n with
    | zero => simp
    | succ m =>
      rw [List.take_succ_cons, List.chain'_cons']
      refine ⟨?_, ih m (List.Chain'.tail hc)⟩
      intro y hy
      cases m with
      | zero => simp at hy
      | succ k =>
        cases l with
        | nil => simp at hy
        | cons b l2 =>
          rw [List.take_succ_cons] at hy
          simp only [List.head?_cons, Option.mem_def, Option.some.injEq] at hy
          subst hy
          exact (List.chain'_cons.mp hc).1

lemma suggestCore_spec (segTags : List (List String)) (v : List ℚ) (topK : Nat) :
    (suggestCore segTags v topK).length ≤ topK ∧
    confSortedDesc (suggestCore segTags v topK) = true ∧
    (suggestCore segTags v topK).all (fun s =>
      decide (0 < s.confidence) && decide (s.confidence ≤ 1) &&
      (s.autoSelect == decide ((7 : ℚ)/10 < s.confidence)) &&
      (tagScoresOf segTags v topK).any (fun p => (p.1 == s.tag) &&
        decide (s.confidence = p.2 / listMaxQ (tagScoresOf segTags v topK)))) = true := by
  by_cases hemp : (tagScoresOf segTags v topK).isEmpty
  · simp [suggestCore, hemp, confSortedDesc]
  · have hne : tagScoresOf segTags v topK ≠ [] := by
      intro h
      rw [h] at hemp
      exact hemp rfl
    have hM : 0 < listMaxQ (tagScoresOf segTags v topK) :=
      listMaxQ_pos hne (tagScoresOf_pos segTags v topK)
    refine ⟨?_, ?_, ?_⟩
    · simp only [suggestCore, hemp, Bool.false_eq_true, if_false]
      exact le_trans (List.length_take_le _ _) (le_refl _)
    · simp only [suggestCore, hemp, Bool.false_eq_true, if_false]
      apply confSortedDesc_of_chain
      apply chain'_take
      rw [List.chain'_map]
      have hch := sortDesc_chain (tagScoresOf segTags v topK)
      refine List.Chain'.imp ?_ hch
      intro a b hab
      simp only [descRel] at hab
      exact div_le_div_of_nonneg_right hab hM.le
    · rw [List.all_eq_true]
      intro s hs
      simp only [suggestCore, hemp, Bool.false_eq_true, if_false] at hs
      have hs2 := List.mem_of_mem_take hs
      rw [List.mem_map] at hs2
      obtain ⟨p, hp, rfl⟩ := hs2
      have hpmem : p ∈ tagScoresOf segTags v topK := mem_sortDesc.mp hp
      have hppos : 0 < p.2 := tagScoresOf_pos segTags v topK p hpmem
      have hple : p.2 ≤ listMaxQ (tagScoresOf segTags v topK) := listMaxQ_ge _ p hpmem
      simp only [Bool.and_eq_true, decide_eq_true_eq, List.any_eq_true]
      refine ⟨⟨⟨?_, ?_⟩, ?_⟩, ?_⟩
      · exact div_pos hppos hM
      · exact (div_le_one hM).mpr hple
      · exact beq_self_eq_true _
      · exact ⟨p, hpmem, by simp⟩

/-! ## Remaining claim theorems -/

/-- C6: for every trained state and query (and every behaviour of the
external similarity computation), every suggestion returned by
`suggest_tags` has confidence equal to its tag's accumulated score divided
by the maximum accumulated score among candidate tags (hence confidence in
`(0, 1]`), has `auto_select` true exactly when confidence exceeds `0.7`,
the list is sorted descending by confidence, and its length is at most
`top_k`. -/
theorem suggest_tags_ranked_normalized
    (sim : List (List Char) → List Char → List ℚ)
    (st : TagSuggester) (t : List Char) (topK : Nat) :
    (suggest_tags sim st t topK).length ≤ topK ∧
    confSortedDesc (suggest_tags sim st t topK) = true ∧
    (suggest_tags sim st t topK).all (fun s =>
      decide (0 < s.confidence) && decide (s.confidence ≤ 1) &&
      (s.autoSelect == decide ((7 : ℚ)/10 < s.confidence)) &&
      (tagScoresOf st.segment_tags (simsOf sim st t) topK).any (fun p =>
        (p.1 == s.tag) && decide (s.confidence =
          p.2 / listMaxQ (tagScoresOf st.segment_tags (simsOf sim st t) topK)))) = true := by
  rcases hvec : st.segment_vectors with _ | vecs
  · simp [suggest_tags, hvec, confSortedDesc]
  · by_cases hlen : st.trained_segments.length = 0
    · simp [suggest_tags, hvec, hlen, confSortedDesc]
    · have hs : suggest_tags sim st t topK =
          suggestCore st.segment_tags (sim vecs t) topK := by
        simp [suggest_tags, hvec, hlen]
      have hsim : simsOf sim st t = sim vecs t := by
        simp [simsOf, hvec]
      rw [hs, hsim]
      exact suggestCore_spec st.segment_tags (sim vecs t) topK

/-- C7 (code evaluated at the claim's example input): `preprocess_text_for_dates`
turns `"07/24/2024-ICF"` into `"07/24/2024 -ICF"` — a space is inserted
only between the date and the adjacent character, not on the far side of
that character — and not into `"07/24/2024 - ICF"` as the claim, the spec
and the function's own docstring state. -/
theorem preprocess_attached_date_behavior :
    preprocess_text_for_dates ("07/24/2024-ICF".toList) = "07/24/2024 -ICF".toList ∧
    preprocess_text_for_dates ("07/24/2024-ICF".toList) ≠ "07/24/2024 - ICF".toList := by
  decide

/-- C8: `suggest_tags` is deterministic — training once on a fixed example
list and querying the same text twice (with the same deterministic
similarity function) yields identical ranked suggestion lists.  The
embedded pipeline is a pure function of the training set and query, so the
two calls are definitionally equal. -/
theorem suggest_tags_deterministic
    (sim : List (List Char) → List Char → List ℚ)
    (ex : List (List Char × List String)) (t : List Char) (topK : Nat) :
    suggest_tags sim (train_on_tagged_segments initSuggester ex) t topK =
      suggest_tags sim (train_on_tagged_segments initSuggester ex) t topK := rfl

/-- C9: `suggest_tags` on a never-trained suggester, or on one trained on
an empty example list, returns the empty list (and, being a total
function, never fails). -/
theorem suggest_tags_cold_start
    (sim : List (List Char) → List Char → List ℚ) (t : List Char) (topK : Nat) :
    suggest_tags sim initSuggester t topK = [] ∧
    suggest_tags sim (train_on_tagged_segments initSuggester []) t topK = [] :=
  ⟨rfl, rfl⟩

/-- C10: `train_on_tagged_segments` with an empty example list is a no-op
on the whole suggester state (fitted vectors, tag lists and trained
segments are retained), so a suggester trained on any earlier set and then
"retrained" on an empty list returns exactly the suggestions of the old
model. -/
theorem train_empty_is_noop
    (sim : List (List Char) → List Char → List ℚ)
    (st : TagSuggester) (t : List Char) (topK : Nat) :
    train_on_tagged_segments st [] = st ∧
    suggest_tags sim (train_on_tagged_segments st []) t topK =
      suggest_tags sim st t topK :=
  ⟨rfl, rfl⟩

end NCRI
